import Mathlib

/-!
Formal model of the KNEXA-FL release code.

The contextual-bandit matchmaking engine (`knexa_fl_release/cpm_linucb.py`,
class `LinUCB`) and the dataset splitter (`knexa_fl_release/split_serializer.py`,
function `_alloc_splits`) are embedded shallowly:

* numpy `float32` arithmetic is modelled over `ℝ`;
* the `d × d` design matrix `A` is a `Matrix (Fin d) (Fin d) ℝ`, the accumulator
  `b` is a vector `Fin d → ℝ`;
* `np.linalg.solve(A, b)` and `np.linalg.inv(A)` are modelled with Mathlib's
  matrix inverse `A⁻¹` (identical to the Python behaviour whenever `A` is
  invertible, which is the regime all claims concern; Python raises on a
  singular matrix, where Mathlib's `A⁻¹` is the zero matrix);
* Python exceptions (numpy shape errors, the pool-size `RuntimeError`) are
  modelled by `Option`: `none` is a raised exception.
-/

namespace KnexaFL

open Matrix

/-- State of the `LinUCB` class: the fields set in `LinUCB.__init__`.
The dimension `d` is carried in the type; `lam`, `beta0`, `A`, `b` mirror the
Python attributes of the same names. -/
structure LinUCB (d : ℕ) where
  lam : ℝ
  beta0 : ℝ
  A : Matrix (Fin d) (Fin d) ℝ
  b : Fin d → ℝ

/-- Constructor `LinUCB.__init__(config)`: `A = lam * eye(d)`, `b = zeros(d, 1)`. -/
noncomputable def init (d : ℕ) (lam beta0 : ℝ) : LinUCB d :=
  ⟨lam, beta0, lam • (1 : Matrix (Fin d) (Fin d) ℝ), 0⟩

/-- Method `_theta`: `np.linalg.solve(A, b)`, i.e. `A⁻¹ b` for invertible `A`. -/
noncomputable def theta {d : ℕ} (st : LinUCB d) : Fin d → ℝ :=
  st.A⁻¹ *ᵥ st.b

/-- Exploration coefficient `beta = beta0 / np.sqrt(max(1, rnd))` computed at the
top of `choose_pairs` and of `ucb_score`. -/
noncomputable def beta (beta0 : ℝ) (rnd : ℕ) : ℝ :=
  beta0 / Real.sqrt ((max 1 rnd : ℕ) : ℝ)

/-- Estimated mean `mu = theta.T @ ctx` for a context vector of length `d`. -/
noncomputable def mu {d : ℕ} (st : LinUCB d) (x : Fin d → ℝ) : ℝ :=
  theta st ⬝ᵥ x

/-- Confidence width `conf = sqrt(ctx.T @ A_inv @ ctx)`. -/
noncomputable def conf {d : ℕ} (st : LinUCB d) (x : Fin d → ℝ) : ℝ :=
  Real.sqrt (x ⬝ᵥ (st.A⁻¹ *ᵥ x))

/-- Score `ucb = mu + beta * conf` computed per candidate in `choose_pairs`. -/
noncomputable def ucb {d : ℕ} (st : LinUCB d) (rnd : ℕ) (x : Fin d → ℝ) : ℝ :=
  mu st x + beta st.beta0 rnd * conf st x

/-- Coerces a Python list of floats of length `d` into a `d`-vector (entries past
the end never occur at use sites, which guard on the length first). -/
def toVec (d : ℕ) (xs : List ℝ) : Fin d → ℝ :=
  fun i => xs.getD i 0

/-- Method `update(ctx_vec, reward)`: `A += x @ x.T; b += r * x` where
`x = asarray(ctx_vec).reshape(-1, 1)` and `r = [[reward]]`.

numpy's in-place broadcasting semantics are modelled exactly: with
`L = len(ctx_vec)`,
* `L = d`: `x @ x.T` is the `d × d` outer product and `r * x` is `reward * x`,
  so `A += x xᵀ` and `b += reward x`;
* `L = 1` (and `d ≠ 1`): `x @ x.T` is the `1 × 1` matrix `[[x₀²]]` and `r * x`
  is `[[reward * x₀]]`; numpy broadcasts both, adding `x₀²` to every entry of
  `A` and `reward * x₀` to every entry of `b` — the call succeeds silently;
* any other `L`: the in-place add raises a shape `ValueError`, modelled `none`. -/
noncomputable def update {d : ℕ} (st : LinUCB d) (ctx_vec : List ℝ) (reward : ℝ) :
    Option (LinUCB d) :=
  if ctx_vec.length = d then
    let x := toVec d ctx_vec
    some ⟨st.lam, st.beta0, st.A + Matrix.vecMulVec x x, st.b + reward • x⟩
  else if ctx_vec.length = 1 then
    let c := ctx_vec.getD 0 0
    some ⟨st.lam, st.beta0, st.A + Matrix.of fun _ _ => c * c, st.b + fun _ => reward * c⟩
  else none

/-- Method `ucb_score(ctx_vec, rnd)`: returns `mu + beta * conf` for a length-`d`
context; for any other length the matrix product `theta.T @ x` raises a shape
`ValueError`, modelled `none`. -/
noncomputable def ucb_score {d : ℕ} (st : LinUCB d) (ctx_vec : List ℝ) (rnd : ℕ) :
    Option ℝ :=
  if ctx_vec.length = d then
    some (mu st (toVec d ctx_vec) + beta st.beta0 rnd * conf st (toVec d ctx_vec))
  else none

/-- Enumeration `itertools.combinations(range n, 2)`: all `(i, j)` with
`i < j < n`, listed with `i` ascending and, for each `i`, `j` ascending. -/
def combs (n : ℕ) : List (ℕ × ℕ) :=
  (List.range n).flatMap fun i =>
    ((List.range n).filter fun j => decide (i < j)).map fun j => (i, j)

/-- Concatenated pair context `np.concatenate([profiles[i], profiles[j]])`,
for per-participant features of dimension `m` (so pair dimension `m + m`). -/
def pairCtx {m : ℕ} (profiles : List (Fin m → ℝ)) (i j : ℕ) : Fin (m + m) → ℝ :=
  Fin.append (profiles.getD i 0) (profiles.getD j 0)

/-- Candidate list built by the `for i, j in combinations(...)` loop of
`choose_pairs`: tuples `(ucb, i, j)` in enumeration order. -/
noncomputable def candidates {m : ℕ} (st : LinUCB (m + m)) (profiles : List (Fin m → ℝ))
    (rnd : ℕ) : List (ℝ × ℕ × ℕ) :=
  (combs profiles.length).map fun p => (ucb st rnd (pairCtx profiles p.1 p.2), p.1, p.2)

/-- Sort key of a candidate: Python compares the tuples `(ucb, i, j)`
lexicographically. -/
def key (c : ℝ × ℕ × ℕ) : Lex (ℝ × Lex (ℕ × ℕ)) :=
  toLex (c.1, toLex (c.2.1, c.2.2))

/-- Comparator realised by `candidates.sort(reverse=True)`: `c` may precede `c'`
exactly when `c` is lexicographically at least `c'`. -/
def candGe (c c' : ℝ × ℕ × ℕ) : Prop :=
  key c' ≤ key c

noncomputable instance : DecidableRel candGe :=
  fun c c' => inferInstanceAs (Decidable (key c' ≤ key c))

instance : IsTrans (ℝ × ℕ × ℕ) candGe :=
  ⟨fun _ _ _ h1 h2 => le_trans h2 h1⟩

instance : IsTotal (ℝ × ℕ × ℕ) candGe :=
  ⟨fun a b => (le_total (key b) (key a)).imp id id⟩

theorem key_inj {c c' : ℝ × ℕ × ℕ} (h : key c = key c') : c = c' := by
  obtain ⟨a, b1, b2⟩ := c
  obtain ⟨a', b1', b2'⟩ := c'
  simp only [key, toLex_inj, Prod.mk.injEq] at h
  simp [h.1, h.2.1, h.2.2]

instance : IsAntisymm (ℝ × ℕ × ℕ) candGe :=
  ⟨fun _ _ h1 h2 => key_inj (le_antisymm h2 h1)⟩

/-- Statement `candidates.sort(reverse=True)`: stable descending sort under the
lexicographic tuple order (stability is irrelevant for the result because two
candidates always differ in their `(i, j)` components). -/
noncomputable def sortDesc (l : List (ℝ × ℕ × ℕ)) : List (ℝ × ℕ × ℕ) :=
  l.insertionSort candGe

/-- Greedy disjoint walk of `choose_pairs`: scans the sorted candidates and
accepts `(i, j)` when neither index is in `used` and fewer than `k` pairs are
accepted so far; returns the accepted pairs and the final `used` set. -/
def greedy (k : ℕ) : List (ℝ × ℕ × ℕ) → List (ℕ × ℕ) → Finset ℕ → List (ℕ × ℕ) × Finset ℕ
  | [], pairs, used => (pairs, used)
  | c :: rest, pairs, used =>
    if c.2.1 ∉ used ∧ c.2.2 ∉ used ∧ pairs.length < k then
      greedy k rest (pairs ++ [(c.2.1, c.2.2)]) (insert c.2.1 (insert c.2.2 used))
    else
      greedy k rest pairs used

/-- Method `choose_pairs(profiles, k_pairs, rnd)`: score all index combinations,
sort descending, then greedily accept disjoint pairs up to `k_pairs`. -/
noncomputable def choose_pairs {m : ℕ} (st : LinUCB (m + m)) (profiles : List (Fin m → ℝ))
    (k_pairs rnd : ℕ) : List (ℕ × ℕ) :=
  (greedy k_pairs (sortDesc (candidates st profiles rnd)) [] ∅).1

/-! Embedding of `split_serializer.py`, function `_alloc_splits`. -/

/-- One entry of `roster["clients"]`: the fields `_alloc_splits` reads
(`c["id"]`, `int(c.get("train_samples", 0))`, `int(c.get("val_samples", 0))`). -/
structure Client where
  id : String
  train_samples : ℕ
  val_samples : ℕ

/-- Cursor loop shared by the train and the val allocation passes of
`_alloc_splits`: for each `(cid, n)` it takes `pool[cursor : cursor + n]` and
advances the cursor by `n`; returns the allocation and the final cursor.
Python's `dict` of splits is modelled as an association list, which agrees with
the dict whenever the client ids are distinct. -/
def allocSeq (pool : List String) : List (String × ℕ) → ℕ → List (String × List String) × ℕ
  | [], cursor => ([], cursor)
  | (cid, n) :: rest, cursor =>
    let seg := (pool.drop cursor).take n
    let r := allocSeq pool rest (cursor + n)
    ((cid, seg) :: r.1, r.2)

/-- Function `_alloc_splits(combined_ids, roster, seed, global_test_size)`.

`rng = np.random.default_rng(seed); rng.shuffle(pool)` is modelled by an
explicit `shuffle` function supplied as a parameter (the PCG64 generator is
external library code); a run with a fixed seed corresponds to a fixed choice
of `shuffle`, and the only fact the code relies on is that shuffling permutes
the pool.  The `RuntimeError` raised when the pool is smaller than the total
requirement is modelled by `none`. -/
def alloc_splits (shuffle : List String → List String) (combined_ids : List String)
    (clients : List Client) (global_test_size : ℕ) :
    Option (List (String × List String) × List (String × List String) × List String) :=
  let pool := shuffle combined_ids
  let req_train := (clients.map Client.train_samples).sum
  let req_val := (clients.map Client.val_samples).sum
  let req_total := req_train + req_val + global_test_size
  if pool.length < req_total then none
  else
    let tr := allocSeq pool (clients.map fun c => (c.id, c.train_samples)) 0
    let va := allocSeq pool (clients.map fun c => (c.id, c.val_samples)) tr.2
    let te := (pool.drop va.2).take global_test_size
    some (tr.1, va.1, te)

/-- Specification predicate for `_alloc_splits` output: the train and val
allocations list every roster client in order with exactly the requested
quotas, the test set has exactly the requested size, and all allocated
segments are pairwise disjoint. `none` (an exception) does not satisfy it. -/
def splitOk (clients : List Client) (global_test_size : ℕ) :
    Option (List (String × List String) × List (String × List String) × List String) → Prop
  | none => False
  | some (tr, va, te) =>
    tr.map Prod.fst = clients.map Client.id ∧
    va.map Prod.fst = clients.map Client.id ∧
    tr.map (fun p => p.2.length) = clients.map Client.train_samples ∧
    va.map (fun p => p.2.length) = clients.map Client.val_samples ∧
    te.length = global_test_size ∧
    (tr.map Prod.snd ++ va.map Prod.snd ++ [te]).Pairwise List.Disjoint

/-- Finite sequence of `update` calls, stopping at the first failure. -/
noncomputable def applyUpdates {d : ℕ} : List (List ℝ × ℝ) → LinUCB d → Option (LinUCB d)
  | [], st => some st
  | u :: rest, st => (update st u.1 u.2).bind fun st' => applyUpdates rest st'

/-- Specification predicate for C6: the run of updates succeeded and left `A`
symmetric, positive-definite and invertible with positive determinant. -/
def goodState {d : ℕ} : Option (LinUCB d) → Prop
  | none => False
  | some st => st.A.IsSymm ∧ st.A.PosDef ∧ 0 < st.A.det ∧ IsUnit st.A.det

/-! Theorems. -/

theorem update_eq_of_length {d : ℕ} (st : LinUCB d) (xs : List ℝ) (r : ℝ)
    (h : xs.length = d) :
    update st xs r =
      some ⟨st.lam, st.beta0, st.A + Matrix.vecMulVec (toVec d xs) (toVec d xs),
        st.b + r • toVec d xs⟩ := by
  simp [update, h]

theorem posSemidef_vecMulVec_self {d : ℕ} (x : Fin d → ℝ) :
    (Matrix.vecMulVec x x).PosSemidef := by
  refine ⟨?_, fun y => ?_⟩
  · ext i j
    simp [Matrix.conjTranspose_apply, Matrix.vecMulVec_apply, mul_comm]
  · have h1 : Matrix.vecMulVec x x *ᵥ y = fun i => x i * (x ⬝ᵥ y) := by
      ext i
      simp [Matrix.vecMulVec, Matrix.mulVec, Matrix.dotProduct, Finset.mul_sum, mul_assoc]
    rw [h1, star_trivial]
    have h3 : y ⬝ᵥ (fun i => x i * (x ⬝ᵥ y)) = (x ⬝ᵥ y) * (x ⬝ᵥ y) := by
      simp only [Matrix.dotProduct]
      rw [Finset.sum_mul]
      exact Finset.sum_congr rfl fun i _ => by ring
    rw [h3]
    exact mul_self_nonneg _

theorem init_A_posDef {d : ℕ} {lam : ℝ} (h : 0 < lam) (beta0 : ℝ) :
    (init d lam beta0).A.PosDef := by
  show (lam • (1 : Matrix (Fin d) (Fin d) ℝ)).PosDef
  rw [Matrix.smul_one_eq_diagonal]
  exact Matrix.PosDef.diagonal fun _ => h

theorem posDef_isSymm {n : ℕ} {A : Matrix (Fin n) (Fin n) ℝ} (h : A.PosDef) :
    A.IsSymm := by
  rw [Matrix.IsSymm, ← Matrix.conjTranspose_eq_transpose_of_trivial]
  exact h.1

theorem applyUpdates_posDef {d : ℕ} :
    ∀ (us : List (List ℝ × ℝ)) (st : LinUCB d), st.A.PosDef →
      (∀ u ∈ us, u.1.length = d) →
      ∃ st', applyUpdates us st = some st' ∧ st'.A.PosDef
  | [], st, hA, _ => ⟨st, rfl, hA⟩
  | u :: rest, st, hA, hlen => by
    have hu : u.1.length = d := hlen u (by simp)
    have hPD : (st.A + Matrix.vecMulVec (toVec d u.1) (toVec d u.1)).PosDef :=
      hA.add_posSemidef (posSemidef_vecMulVec_self _)
    obtain ⟨st', h1, h2⟩ :=
      applyUpdates_posDef rest
        ⟨st.lam, st.beta0, st.A + Matrix.vecMulVec (toVec d u.1) (toVec d u.1),
          st.b + u.2 • toVec d u.1⟩
        hPD (fun v hv => hlen v (List.mem_cons_of_mem _ hv))
    refine ⟨st', ?_, h2⟩
    rw [applyUpdates, update_eq_of_length st u.1 u.2 hu]
    simpa using h1

/-- C6: for every regularisation `λ > 0` and every finite sequence of `update`
calls with length-`d` contexts, the run succeeds and the matrix `A`
(initialised to `λ I`) stays symmetric and positive-definite, hence invertible
with determinant `> 0`. -/
theorem C6_posdef_invariant (d : ℕ) (lam beta0 : ℝ) (hlam : 0 < lam)
    (us : List (List ℝ × ℝ)) (hlen : ∀ u ∈ us, u.1.length = d) :
    goodState (applyUpdates us (init d lam beta0)) := by
  obtain ⟨st', h1, h2⟩ := applyUpdates_posDef us (init d lam beta0) (init_A_posDef hlam beta0) hlen
  rw [h1]
  exact ⟨posDef_isSymm h2, h2, h2.det_pos, isUnit_iff_ne_zero.mpr h2.det_pos.ne'⟩

/-- Witness for C6 at `d = 1`, `λ = 1`, and the single update `([2], 3)`. -/
theorem C6_posdef_invariant_witness :
    goodState (applyUpdates [([2], 3)] (init 1 1 1)) :=
  C6_posdef_invariant 1 1 1 one_pos [([2], 3)] (by simp)

/-- C5: for a fixed state with positive-definite `A` (the §3 invariant) and
`β₀ > 0` (the §6 configuration constraint), the exploration term
`β·conf` at any nonzero candidate context is strictly smaller at a later round
`r2 > r1 ≥ 1`, and below the floor the term is clamped: round `0` gives the
same value as round `1`. -/
theorem C5_confidence_decay {d : ℕ} (st : LinUCB d) (x : Fin d → ℝ)
    (hA : st.A.PosDef) (hb : 0 < st.beta0) (hx : x ≠ 0) (r1 r2 : ℕ)
    (h1 : 1 ≤ r1) (h12 : r1 < r2) :
    beta st.beta0 r2 * conf st x < beta st.beta0 r1 * conf st x ∧
    beta st.beta0 0 * conf st x = beta st.beta0 1 * conf st x := by
  have hq : 0 < x ⬝ᵥ (st.A⁻¹ *ᵥ x) := by simpa using hA.inv.2 x hx
  have hconf : 0 < conf st x := Real.sqrt_pos.mpr hq
  constructor
  · have hmax1 : max 1 r1 = r1 := max_eq_right h1
    have hmax2 : max 1 r2 = r2 := max_eq_right (le_trans h1 (le_of_lt h12))
    have hr1pos : (0 : ℝ) < (r1 : ℝ) := by exact_mod_cast lt_of_lt_of_le one_pos h1
    have hlt : Real.sqrt (r1 : ℝ) < Real.sqrt (r2 : ℝ) :=
      Real.sqrt_lt_sqrt hr1pos.le (by exact_mod_cast h12)
    have hb2 : beta st.beta0 r2 < beta st.beta0 r1 := by
      unfold beta
      rw [hmax1, hmax2]
      exact div_lt_div_of_pos_left hb (Real.sqrt_pos.mpr hr1pos) hlt
    exact mul_lt_mul_of_pos_right hb2 hconf
  · norm_num [beta]

/-! Lemmas about the greedy disjoint walk. -/

/-- Disjointness of two index pairs: no shared participant index. -/
def PairDisj (p q : ℕ × ℕ) : Prop :=
  p.1 ≠ q.1 ∧ p.1 ≠ q.2 ∧ p.2 ≠ q.1 ∧ p.2 ≠ q.2

theorem greedy_used_mono {k : ℕ} :
    ∀ (l : List (ℝ × ℕ × ℕ)) (pairs : List (ℕ × ℕ)) (used : Finset ℕ),
      used ⊆ (greedy k l pairs used).2
  | [], _, _ => subset_rfl
  | c :: rest, pairs, used => by
    by_cases h : c.2.1 ∉ used ∧ c.2.2 ∉ used ∧ pairs.length < k
    · rw [greedy, if_pos h]
      exact subset_trans (subset_trans (Finset.subset_insert _ _) (Finset.subset_insert _ _))
        (greedy_used_mono rest _ _)
    · rw [greedy, if_neg h]
      exact greedy_used_mono rest _ _

theorem greedy_len_mono {k : ℕ} :
    ∀ (l : List (ℝ × ℕ × ℕ)) (pairs : List (ℕ × ℕ)) (used : Finset ℕ),
      pairs.length ≤ (greedy k l pairs used).1.length
  | [], _, _ => le_rfl
  | c :: rest, pairs, used => by
    by_cases h : c.2.1 ∉ used ∧ c.2.2 ∉ used ∧ pairs.length < k
    · rw [greedy, if_pos h]
      calc pairs.length ≤ (pairs ++ [(c.2.1, c.2.2)]).length := by simp
        _ ≤ _ := greedy_len_mono rest _ _
    · rw [greedy, if_neg h]
      exact greedy_len_mono rest _ _

theorem greedy_le_k {k : ℕ} :
    ∀ (l : List (ℝ × ℕ × ℕ)) (pairs : List (ℕ × ℕ)) (used : Finset ℕ),
      pairs.length ≤ k → (greedy k l pairs used).1.length ≤ k
  | [], _, _, h => h
  | c :: rest, pairs, used, h => by
    by_cases hc : c.2.1 ∉ used ∧ c.2.2 ∉ used ∧ pairs.length < k
    · rw [greedy, if_pos hc]
      exact greedy_le_k rest _ _ (by simpa using hc.2.2)
    · rw [greedy, if_neg hc]
      exact greedy_le_k rest _ _ h

theorem greedy_card {k : ℕ} :
    ∀ (l : List (ℝ × ℕ × ℕ)) (pairs : List (ℕ × ℕ)) (used : Finset ℕ),
      (∀ c ∈ l, c.2.1 ≠ c.2.2) → used.card = 2 * pairs.length →
      (greedy k l pairs used).2.card = 2 * (greedy k l pairs used).1.length
  | [], _, _, _, h => h
  | c :: rest, pairs, used, hne, h => by
    by_cases hc : c.2.1 ∉ used ∧ c.2.2 ∉ used ∧ pairs.length < k
    · rw [greedy, if_pos hc]
      refine greedy_card rest _ _ (fun c' hc' => hne c' (List.mem_cons_of_mem _ hc')) ?_
      have hij : c.2.1 ≠ c.2.2 := hne c (List.mem_cons_self _ _)
      have h1 : c.2.1 ∉ insert c.2.2 used := by
        simp only [Finset.mem_insert]
        push_neg
        exact ⟨hij, hc.1⟩
      rw [Finset.card_insert_of_not_mem h1, Finset.card_insert_of_not_mem hc.2.1, h]
      simp [Nat.mul_succ]
    · rw [greedy, if_neg hc]
      exact greedy_card rest _ _ (fun c' hc' => hne c' (List.mem_cons_of_mem _ hc')) h

theorem greedy_used_subset {k n : ℕ} :
    ∀ (l : List (ℝ × ℕ × ℕ)) (pairs : List (ℕ × ℕ)) (used : Finset ℕ),
      (∀ c ∈ l, c.2.1 < n ∧ c.2.2 < n) → used ⊆ Finset.range n →
      (greedy k l pairs used).2 ⊆ Finset.range n
  | [], _, _, _, h => h
  | c :: rest, pairs, used, hlt, h => by
    by_cases hc : c.2.1 ∉ used ∧ c.2.2 ∉ used ∧ pairs.length < k
    · rw [greedy, if_pos hc]
      refine greedy_used_subset rest _ _ (fun c' hc' => hlt c' (List.mem_cons_of_mem _ hc')) ?_
      have hm := hlt c (List.mem_cons_self _ _)
      refine Finset.insert_subset (Finset.mem_range.mpr hm.1) ?_
      exact Finset.insert_subset (Finset.mem_range.mpr hm.2) h
    · rw [greedy, if_neg hc]
      exact greedy_used_subset rest _ _ (fun c' hc' => hlt c' (List.mem_cons_of_mem _ hc')) h

theorem greedy_inv {k : ℕ} :
    ∀ (l : List (ℝ × ℕ × ℕ)) (pairs : List (ℕ × ℕ)) (used : Finset ℕ),
      (∀ c ∈ l, c.2.1 ≠ c.2.2) →
      (∀ p ∈ pairs, p.1 ∈ used ∧ p.2 ∈ used) →
      pairs.Pairwise PairDisj →
      (∀ p ∈ pairs, p.1 ≠ p.2) →
      (greedy k l pairs used).1.Pairwise PairDisj ∧
        ∀ p ∈ (greedy k l pairs used).1, p.1 ≠ p.2
  | [], _, _, _, _, hpw, hd => ⟨hpw, hd⟩
  | c :: rest, pairs, used, hne, hin, hpw, hd => by
    by_cases hc : c.2.1 ∉ used ∧ c.2.2 ∉ used ∧ pairs.length < k
    · rw [greedy, if_pos hc]
      have hij : c.2.1 ≠ c.2.2 := hne c (List.mem_cons_self _ _)
      refine greedy_inv rest _ _ (fun c' hc' => hne c' (List.mem_cons_of_mem _ hc')) ?_ ?_ ?_
      · intro p hp
        rcases List.mem_append.mp hp with hp | hp
        · have := hin p hp
          exact ⟨Finset.mem_insert_of_mem (Finset.mem_insert_of_mem this.1),
            Finset.mem_insert_of_mem (Finset.mem_insert_of_mem this.2)⟩
        · simp only [List.mem_singleton] at hp
          subst hp
          exact ⟨Finset.mem_insert_self _ _,
            Finset.mem_insert_of_mem (Finset.mem_insert_self _ _)⟩
      · rw [List.pairwise_append]
        refine ⟨hpw, List.pairwise_singleton _ _, ?_⟩
        intro p hp q hq
        simp only [List.mem_singleton] at hq
        subst hq
        have hpu := hin p hp
        refine ⟨fun e => hc.1 (e ▸ hpu.1), fun e => hc.2.1 (e ▸ hpu.1),
          fun e => hc.1 (e ▸ hpu.2), fun e => hc.2.1 (e ▸ hpu.2)⟩
      · intro p hp
        rcases List.mem_append.mp hp with hp | hp
        · exact hd p hp
        · simp only [List.mem_singleton] at hp
          subst hp
          exact hij
    · rw [greedy, if_neg hc]
      exact greedy_inv rest _ _ (fun c' hc' => hne c' (List.mem_cons_of_mem _ hc')) hin hpw hd

theorem greedy_full {k : ℕ} :
    ∀ (l : List (ℝ × ℕ × ℕ)) (pairs : List (ℕ × ℕ)) (used : Finset ℕ) (c : ℝ × ℕ × ℕ),
      c ∈ l → c.2.1 ∉ (greedy k l pairs used).2 → c.2.2 ∉ (greedy k l pairs used).2 →
      k ≤ (greedy k l pairs used).1.length
  | c' :: rest, pairs, used, c, hmem, h1, h2 => by
    rcases List.mem_cons.mp hmem with rfl | hmem
    · by_cases hc : c.2.1 ∉ used ∧ c.2.2 ∉ used ∧ pairs.length < k
      · rw [greedy, if_pos hc] at h1
        exact absurd (greedy_used_mono rest _ _ (Finset.mem_insert_self _ _)) h1
      · rw [greedy, if_neg hc]
        rw [greedy, if_neg hc] at h1 h2
        push_neg at hc
        by_cases hu1 : c.2.1 ∈ used
        · exact absurd (greedy_used_mono rest _ _ hu1) h1
        by_cases hu2 : c.2.2 ∈ used
        · exact absurd (greedy_used_mono rest _ _ hu2) h2
        · exact le_trans (hc hu1 hu2) (greedy_len_mono rest _ _)
    · by_cases hc : c'.2.1 ∉ used ∧ c'.2.2 ∉ used ∧ pairs.length < k
      · rw [greedy, if_pos hc] at h1 h2 ⊢
        exact greedy_full rest _ _ c hmem h1 h2
      · rw [greedy, if_neg hc] at h1 h2 ⊢
        exact greedy_full rest _ _ c hmem h1 h2

theorem mem_combs {n : ℕ} {p : ℕ × ℕ} : p ∈ combs n ↔ p.1 < p.2 ∧ p.2 < n := by
  obtain ⟨i, j⟩ := p
  simp only [combs, List.mem_flatMap, List.mem_map, List.mem_filter, List.mem_range,
    decide_eq_true_eq, Prod.mk.injEq]
  constructor
  · rintro ⟨a, ha, b, ⟨hbn, hab⟩, rfl, rfl⟩
    exact ⟨hab, hbn⟩
  · rintro ⟨hij, hjn⟩
    exact ⟨i, lt_trans hij hjn, j, ⟨hjn, hij⟩, rfl, rfl⟩

theorem mem_candidates_of {m : ℕ} (st : LinUCB (m + m)) (profiles : List (Fin m → ℝ))
    (rnd : ℕ) {i j : ℕ} (hij : i < j) (hj : j < profiles.length) :
    (ucb st rnd (pairCtx profiles i j), i, j) ∈ candidates st profiles rnd := by
  simp only [candidates, List.mem_map]
  exact ⟨(i, j), mem_combs.mpr ⟨hij, hj⟩, rfl⟩

theorem candidates_bounds {m : ℕ} {st : LinUCB (m + m)} {profiles : List (Fin m → ℝ)}
    {rnd : ℕ} {c : ℝ × ℕ × ℕ} (h : c ∈ candidates st profiles rnd) :
    c.2.1 < c.2.2 ∧ c.2.2 < profiles.length := by
  simp only [candidates, List.mem_map] at h
  obtain ⟨p, hp, rfl⟩ := h
  exact mem_combs.mp hp

theorem sortDesc_mem {l : List (ℝ × ℕ × ℕ)} {c : ℝ × ℕ × ℕ} : c ∈ sortDesc l ↔ c ∈ l :=
  (List.perm_insertionSort candGe l).mem_iff

/-- C3: every call of `choose_pairs` returns pairwise-disjoint pairs of
distinct indices, and at most `k_pairs` and at most `⌊n/2⌋` of them, where `n`
is the number of supplied contexts. -/
theorem C3_disjoint_bounds {m : ℕ} (st : LinUCB (m + m)) (profiles : List (Fin m → ℝ))
    (k_pairs rnd : ℕ) :
    (choose_pairs st profiles k_pairs rnd).Pairwise PairDisj ∧
    (∀ p ∈ choose_pairs st profiles k_pairs rnd, p.1 ≠ p.2) ∧
    (choose_pairs st profiles k_pairs rnd).length ≤ k_pairs ∧
    (choose_pairs st profiles k_pairs rnd).length ≤ profiles.length / 2 := by
  simp only [choose_pairs]
  have hbounds : ∀ c ∈ sortDesc (candidates st profiles rnd),
      c.2.1 < c.2.2 ∧ c.2.2 < profiles.length :=
    fun c hc => candidates_bounds (sortDesc_mem.mp hc)
  have hne : ∀ c ∈ sortDesc (candidates st profiles rnd), c.2.1 ≠ c.2.2 :=
    fun c hc => Nat.ne_of_lt (hbounds c hc).1
  have hinv := greedy_inv (k := k_pairs) (sortDesc (candidates st profiles rnd)) [] ∅
    hne (by simp) (by simp) (by simp)
  have hcard := greedy_card (k := k_pairs) (sortDesc (candidates st profiles rnd)) [] ∅
    hne (by simp)
  have hsub := greedy_used_subset (k := k_pairs) (n := profiles.length)
    (sortDesc (candidates st profiles rnd)) [] ∅
    (fun c hc => ⟨lt_trans (hbounds c hc).1 (hbounds c hc).2, (hbounds c hc).2⟩) (by simp)
  have hk := greedy_le_k (k := k_pairs) (sortDesc (candidates st profiles rnd)) [] ∅ (by simp)
  have hcardle : (greedy k_pairs (sortDesc (candidates st profiles rnd)) [] ∅).2.card ≤
      profiles.length := by
    simpa using Finset.card_le_card hsub
  exact ⟨hinv.1, hinv.2, hk, by omega⟩

/-- C10: for every state, round and budget, `choose_pairs` returns exactly
`min k_pairs ⌊n/2⌋` pairs — never fewer: all index combinations are candidates,
so the greedy walk only stops short of the budget when fewer than two unused
indices remain. -/
theorem C10_exact_pair_count {m : ℕ} (st : LinUCB (m + m)) (profiles : List (Fin m → ℝ))
    (k_pairs rnd : ℕ) :
    (choose_pairs st profiles k_pairs rnd).length = min k_pairs (profiles.length / 2) := by
  simp only [choose_pairs]
  have hbounds : ∀ c ∈ sortDesc (candidates st profiles rnd),
      c.2.1 < c.2.2 ∧ c.2.2 < profiles.length :=
    fun c hc => candidates_bounds (sortDesc_mem.mp hc)
  have hne : ∀ c ∈ sortDesc (candidates st profiles rnd), c.2.1 ≠ c.2.2 :=
    fun c hc => Nat.ne_of_lt (hbounds c hc).1
  have hcard := greedy_card (k := k_pairs) (sortDesc (candidates st profiles rnd)) [] ∅
    hne (by simp)
  have hsub := greedy_used_subset (k := k_pairs) (n := profiles.length)
    (sortDesc (candidates st profiles rnd)) [] ∅
    (fun c hc => ⟨lt_trans (hbounds c hc).1 (hbounds c hc).2, (hbounds c hc).2⟩) (by simp)
  have hk := greedy_le_k (k := k_pairs) (sortDesc (candidates st profiles rnd)) [] ∅ (by simp)
  have hcardle : (greedy k_pairs (sortDesc (candidates st profiles rnd)) [] ∅).2.card ≤
      profiles.length := by
    simpa using Finset.card_le_card hsub
  by_cases hlt : (greedy k_pairs (sortDesc (candidates st profiles rnd)) [] ∅).1.length < k_pairs
  · have hcomplete : ∀ a b : ℕ, a < b → b < profiles.length →
        a ∈ (greedy k_pairs (sortDesc (candidates st profiles rnd)) [] ∅).2 ∨
        b ∈ (greedy k_pairs (sortDesc (candidates st profiles rnd)) [] ∅).2 := by
      intro a b hab hbn
      by_contra hcon
      push_neg at hcon
      have hmem : ((ucb st rnd (pairCtx profiles a b), a, b) : ℝ × ℕ × ℕ) ∈
          sortDesc (candidates st profiles rnd) := by
        rw [sortDesc_mem]
        exact mem_candidates_of st profiles rnd hab hbn
      exact absurd (greedy_full _ _ _ _ hmem hcon.1 hcon.2) (not_le.mpr hlt)
    have hcard1 : (Finset.range profiles.length \
        (greedy k_pairs (sortDesc (candidates st profiles rnd)) [] ∅).2).card ≤ 1 := by
      by_contra hgt
      push_neg at hgt
      obtain ⟨a, ha, b, hb, hab⟩ := Finset.one_lt_card.mp hgt
      simp only [Finset.mem_sdiff, Finset.mem_range] at ha hb
      rcases Nat.lt_or_ge a b with h' | h'
      · rcases hcomplete a b h' hb.1 with hmem | hmem
        · exact ha.2 hmem
        · exact hb.2 hmem
      · have h'' : b < a := lt_of_le_of_ne h' (Ne.symm hab)
        rcases hcomplete b a h'' ha.1 with hmem | hmem
        · exact hb.2 hmem
        · exact ha.2 hmem
    have hsd : (Finset.range profiles.length \
        (greedy k_pairs (sortDesc (candidates st profiles rnd)) [] ∅).2).card =
        profiles.length -
          (greedy k_pairs (sortDesc (candidates st profiles rnd)) [] ∅).2.card := by
      rw [Finset.card_sdiff hsub, Finset.card_range]
    omega
  · omega

/-! Concrete scenarios used for C1 and C8: per-participant dimension 1
(`d = 1 + 1`), `λ = 1`, `β₀ = 1`, so `A = I₂`, `b = 0`. -/

/-- Fresh bandit state with `d = 2`, `λ = 1`, `β₀ = 1`. -/
noncomputable def idState : LinUCB (1 + 1) := init (1 + 1) 1 1

/-- Three identical one-dimensional contexts: every candidate pair ties. -/
def ceProfiles : List (Fin 1 → ℝ) := [fun _ => 1, fun _ => 1, fun _ => 1]

theorem perm3_rev {α : Type*} (a b c : α) : [a, b, c].Perm [c, b, a] := by
  have h1 : [a, b, c].Perm [b, a, c] := List.Perm.swap b a [c]
  have h2 : [b, a, c].Perm [b, c, a] := List.Perm.cons b (List.Perm.swap c a [])
  have h3 : [b, c, a].Perm [c, b, a] := List.Perm.swap c b [a]
  exact (h1.trans h2).trans h3

/-- C1 counterexample: with three identical contexts, all candidate pairs have
the same `ucb` score, yet `choose_pairs` (with `k_pairs = 1`, round 1) returns
`[(1, 2)]` — the LAST pair in enumeration order, not the first-enumerated
`(0, 1)`: Python's `sort(reverse=True)` on `(ucb, i, j)` tuples orders equal
scores by DESCENDING `(i, j)`, not by original enumeration order. -/
theorem C1_counterexample :
    ucb idState 1 (pairCtx ceProfiles 0 1) = ucb idState 1 (pairCtx ceProfiles 1 2) ∧
    ucb idState 1 (pairCtx ceProfiles 0 2) = ucb idState 1 (pairCtx ceProfiles 1 2) ∧
    choose_pairs idState ceProfiles 1 1 = [(1, 2)] := by
  refine ⟨rfl, rfl, ?_⟩
  have hcand : candidates idState ceProfiles 1 =
      [(ucb idState 1 (pairCtx ceProfiles 0 1), 0, 1),
       (ucb idState 1 (pairCtx ceProfiles 0 1), 0, 2),
       (ucb idState 1 (pairCtx ceProfiles 0 1), 1, 2)] := rfl
  have hsort : sortDesc (candidates idState ceProfiles 1) =
      [(ucb idState 1 (pairCtx ceProfiles 0 1), 1, 2),
       (ucb idState 1 (pairCtx ceProfiles 0 1), 0, 2),
       (ucb idState 1 (pairCtx ceProfiles 0 1), 0, 1)] := by
    refine List.eq_of_perm_of_sorted ?_ (List.sorted_insertionSort candGe _) ?_
    · rw [hcand]
      exact (List.perm_insertionSort candGe _).trans (perm3_rev _ _ _)
    · simp [List.sorted_cons, candGe, key, Prod.Lex.le_iff]
  rw [choose_pairs, hsort]
  simp [greedy]

/-- C1 amended: the sorted candidate list produced inside `choose_pairs` is a
permutation of the enumerated candidates ordered by descending `(ucb, i, j)`
tuples — so equal `ucb` scores are tie-broken by descending index pair
`(i, j)` (the reverse of enumeration order), which is still a deterministic
function of the input order. -/
theorem C1_tie_break_order {m : ℕ} (st : LinUCB (m + m)) (profiles : List (Fin m → ℝ))
    (rnd : ℕ) :
    (sortDesc (candidates st profiles rnd)).Sorted candGe ∧
    (sortDesc (candidates st profiles rnd)).Perm (candidates st profiles rnd) :=
  ⟨List.sorted_insertionSort candGe _, List.perm_insertionSort candGe _⟩

/-- Contexts of the §8 concrete scenario: `[[1.0], [0.0], [0.5]]`. -/
noncomputable def c8Profiles : List (Fin 1 → ℝ) := [fun _ => 1, fun _ => 0, fun _ => 1 / 2]

theorem dot_fin2 (x : Fin (1 + 1) → ℝ) : x ⬝ᵥ x = x 0 * x 0 + x 1 * x 1 := by
  show ∑ i : Fin 2, x i * x i = _
  rw [Fin.sum_univ_two]

theorem idState_A : idState.A = 1 := by
  show (1 : ℝ) • (1 : Matrix (Fin (1 + 1)) (Fin (1 + 1)) ℝ) = 1
  rw [one_smul]

theorem idState_theta : theta idState = 0 := by
  show idState.A⁻¹ *ᵥ (0 : Fin (1 + 1) → ℝ) = 0
  rw [Matrix.mulVec_zero]

theorem idState_mu (x : Fin (1 + 1) → ℝ) : mu idState x = 0 := by
  rw [mu, idState_theta, Matrix.zero_dotProduct]

theorem idState_conf (x : Fin (1 + 1) → ℝ) : conf idState x = Real.sqrt (x ⬝ᵥ x) := by
  rw [conf, idState_A, inv_one, Matrix.one_mulVec]

theorem idState_ucb (x : Fin (1 + 1) → ℝ) : ucb idState 1 x = Real.sqrt (x ⬝ᵥ x) := by
  rw [ucb, idState_mu, idState_conf]
  have hb : beta idState.beta0 1 = 1 := by
    show (1 : ℝ) / Real.sqrt ((max 1 1 : ℕ) : ℝ) = 1
    norm_num
  rw [hb]
  ring

/-- C8: in the §8 scenario (`d = 2`, `λ = 1`, `β₀ = 1`, fresh state, contexts
`[[1.0], [0.0], [0.5]]`, `k_pairs = 1`, round 1) every candidate pair has
`μ = 0`, every confidence term equals the Euclidean norm `√(x ⬝ᵥ x)` of the
concatenated pair vector, and `choose_pairs` returns exactly `[(0, 2)]`, the
pair whose concatenated vector `[1.0, 0.5]` has the largest norm. -/
theorem C8_concrete_scenario :
    mu idState (pairCtx c8Profiles 0 1) = 0 ∧
    mu idState (pairCtx c8Profiles 0 2) = 0 ∧
    mu idState (pairCtx c8Profiles 1 2) = 0 ∧
    conf idState (pairCtx c8Profiles 0 1)
      = Real.sqrt (pairCtx c8Profiles 0 1 ⬝ᵥ pairCtx c8Profiles 0 1) ∧
    conf idState (pairCtx c8Profiles 0 2)
      = Real.sqrt (pairCtx c8Profiles 0 2 ⬝ᵥ pairCtx c8Profiles 0 2) ∧
    conf idState (pairCtx c8Profiles 1 2)
      = Real.sqrt (pairCtx c8Profiles 1 2 ⬝ᵥ pairCtx c8Profiles 1 2) ∧
    choose_pairs idState c8Profiles 1 1 = [(0, 2)] := by
  have d01 : pairCtx c8Profiles 0 1 ⬝ᵥ pairCtx c8Profiles 0 1 = 1 := by
    rw [dot_fin2]
    have e0 : pairCtx c8Profiles 0 1 0 = 1 := rfl
    have e1 : pairCtx c8Profiles 0 1 1 = 0 := rfl
    rw [e0, e1]
    norm_num
  have d02 : pairCtx c8Profiles 0 2 ⬝ᵥ pairCtx c8Profiles 0 2 = 5 / 4 := by
    rw [dot_fin2]
    have e0 : pairCtx c8Profiles 0 2 0 = 1 := rfl
    have e1 : pairCtx c8Profiles 0 2 1 = 1 / 2 := rfl
    rw [e0, e1]
    norm_num
  have d12 : pairCtx c8Profiles 1 2 ⬝ᵥ pairCtx c8Profiles 1 2 = 1 / 4 := by
    rw [dot_fin2]
    have e0 : pairCtx c8Profiles 1 2 0 = 0 := rfl
    have e1 : pairCtx c8Profiles 1 2 1 = 1 / 2 := rfl
    rw [e0, e1]
    norm_num
  refine ⟨idState_mu _, idState_mu _, idState_mu _, idState_conf _, idState_conf _,
    idState_conf _, ?_⟩
  have hu01 : ucb idState 1 (pairCtx c8Profiles 0 1) = Real.sqrt 1 := by
    rw [idState_ucb, d01]
  have hu02 : ucb idState 1 (pairCtx c8Profiles 0 2) = Real.sqrt (5 / 4) := by
    rw [idState_ucb, d02]
  have hu12 : ucb idState 1 (pairCtx c8Profiles 1 2) = Real.sqrt (1 / 4) := by
    rw [idState_ucb, d12]
  have hlt1 : Real.sqrt 1 < Real.sqrt (5 / 4) := Real.sqrt_lt_sqrt (by norm_num) (by norm_num)
  have hlt2 : Real.sqrt (1 / 4) < Real.sqrt 1 := Real.sqrt_lt_sqrt (by norm_num) (by norm_num)
  have hlt3 : Real.sqrt (1 / 4) < Real.sqrt (5 / 4) := hlt2.trans hlt1
  have hcand : candidates idState c8Profiles 1 =
      [(ucb idState 1 (pairCtx c8Profiles 0 1), 0, 1),
       (ucb idState 1 (pairCtx c8Profiles 0 2), 0, 2),
       (ucb idState 1 (pairCtx c8Profiles 1 2), 1, 2)] := rfl
  have hsort : sortDesc (candidates idState c8Profiles 1) =
      [(ucb idState 1 (pairCtx c8Profiles 0 2), 0, 2),
       (ucb idState 1 (pairCtx c8Profiles 0 1), 0, 1),
       (ucb idState 1 (pairCtx c8Profiles 1 2), 1, 2)] := by
    refine List.eq_of_perm_of_sorted ?_ (List.sorted_insertionSort candGe _) ?_
    · rw [hcand]
      exact (List.perm_insertionSort candGe _).trans (List.Perm.swap _ _ _)
    · rw [hu01, hu02, hu12, List.sorted_cons, List.sorted_cons]
      refine ⟨?_, ?_, List.sorted_singleton _⟩
      · intro b hb
        simp only [List.mem_cons, List.mem_singleton] at hb
        rcases hb with rfl | rfl | hb
        · exact (Prod.Lex.le_iff _ _).mpr (Or.inl hlt1)
        · exact (Prod.Lex.le_iff _ _).mpr (Or.inl hlt3)
        · exact absurd hb (List.not_mem_nil _)
      · intro b hb
        simp only [List.mem_singleton] at hb
        subst hb
        exact (Prod.Lex.le_iff _ _).mpr (Or.inl hlt2)
  rw [choose_pairs, hsort]
  simp [greedy]

/-- Witness for C5 at `d = 1`, the identity state, `x = (1)`, rounds 1 and 2. -/
theorem C5_confidence_decay_witness :
    beta (init 1 1 1).beta0 2 * conf (init 1 1 1) (fun _ => 1) <
      beta (init 1 1 1).beta0 1 * conf (init 1 1 1) (fun _ => 1) ∧
    beta (init 1 1 1).beta0 0 * conf (init 1 1 1) (fun _ => 1) =
      beta (init 1 1 1).beta0 1 * conf (init 1 1 1) (fun _ => 1) :=
  C5_confidence_decay (init 1 1 1) (fun _ => 1) (init_A_posDef one_pos 1)
    (by norm_num [init]) (fun hcontra => by simpa using congrFun hcontra 0)
    1 2 le_rfl one_lt_two

/-- C4: for every prior state `(A_old, b_old)`, context vector `x` of length
`d` and scalar reward `r`, `update(x, r)` succeeds and the new state has
`A_new = A_old + x xᵀ` and `b_new = b_old + r x` exactly, with every other
field (`lam`, `beta0`, and the dimension) unchanged. -/
theorem C4_update_state {d : ℕ} (st : LinUCB d) (xs : List ℝ) (r : ℝ)
    (h : xs.length = d) :
    update st xs r =
      some ⟨st.lam, st.beta0, st.A + Matrix.vecMulVec (toVec d xs) (toVec d xs),
        st.b + r • toVec d xs⟩ := by
  simp [update, h]

/-- Witness for C4 at `d = 2`, `x = [1, 2]`, `r = 3`. -/
theorem C4_update_state_witness :
    update (init 2 1 1) [1, 2] 3 =
      some ⟨(init 2 1 1).lam, (init 2 1 1).beta0,
        (init 2 1 1).A + Matrix.vecMulVec (toVec 2 [1, 2]) (toVec 2 [1, 2]),
        (init 2 1 1).b + (3 : ℝ) • toVec 2 [1, 2]⟩ :=
  C4_update_state (init 2 1 1) [1, 2] 3 rfl

/-- C2 counterexample: with `d = 2`, calling `update` on the length-1 vector
`[5]` does not fail: numpy broadcasts the `1 × 1` outer product over the whole
`2 × 2` state, silently adding `25` even to the off-diagonal entry `A[0][1]`. -/
theorem C2_counterexample :
    (update (init 2 1 1) [(5 : ℝ)] 1).isSome = true ∧
    ((update (init 2 1 1) [(5 : ℝ)] 1).getD (init 2 1 1)).A 0 1 = 25 := by
  constructor
  · simp [update]
  · norm_num [update, init, Matrix.one_apply]

/-- C2 amended: `ucb_score` fails on every context whose length differs from
`d`, and `update` fails on every such context except a length-1 vector, which
numpy silently broadcasts into the whole `d`-dimensional state instead. -/
theorem C2_dim_mismatch {d : ℕ} (st : LinUCB d) (xs : List ℝ) (r : ℝ) (rnd : ℕ)
    (hd : xs.length ≠ d) :
    ucb_score st xs rnd = none ∧ (xs.length ≠ 1 → update st xs r = none) :=
  ⟨by simp [ucb_score, hd], fun h1 => by simp [update, hd, h1]⟩

/-- Witness for the amended C2 at `d = 2` and the length-3 vector `[1, 2, 3]`. -/
theorem C2_dim_mismatch_witness :
    ucb_score (init 2 1 1) [1, 2, 3] 1 = none ∧
    update (init 2 1 1) [1, 2, 3] 4 = none :=
  ⟨(C2_dim_mismatch (init 2 1 1) [1, 2, 3] 4 1 (by simp)).1,
   (C2_dim_mismatch (init 2 1 1) [1, 2, 3] 4 1 (by simp)).2 (by simp)⟩

/-- C7: for every state, `k_pairs` and round, `choose_pairs` on a contexts list
with fewer than 2 entries returns the empty pair list (and does not fail):
`combinations(range n, 2)` is empty, so the greedy walk accepts nothing. -/
theorem C7_insufficient_candidates {m : ℕ} (st : LinUCB (m + m))
    (profiles : List (Fin m → ℝ)) (k_pairs rnd : ℕ) (h : profiles.length < 2) :
    choose_pairs st profiles k_pairs rnd = [] := by
  have hc : combs profiles.length = [] := by
    interval_cases hn : profiles.length <;> rfl
  simp [choose_pairs, candidates, hc, sortDesc, List.insertionSort, greedy]

/-- Witness for C7 at the empty contexts list. -/
theorem C7_insufficient_candidates_witness :
    choose_pairs (init (1 + 1) 1 1) ([] : List (Fin 1 → ℝ)) 3 1 = [] :=
  C7_insufficient_candidates _ _ 3 1 (by simp)

/-! Lemmas about the splitter. -/

theorem allocSeq_map_fst (pool : List String) :
    ∀ (specs : List (String × ℕ)) (cur : ℕ),
      (allocSeq pool specs cur).1.map Prod.fst = specs.map Prod.fst
  | [], _ => rfl
  | (cid, n) :: rest, cur => by
    simp only [allocSeq, List.map_cons]
    rw [allocSeq_map_fst pool rest (cur + n)]

theorem allocSeq_lengths (pool : List String) :
    ∀ (specs : List (String × ℕ)) (cur : ℕ),
      cur + (specs.map Prod.snd).sum ≤ pool.length →
      (allocSeq pool specs cur).1.map (fun p => p.2.length) = specs.map Prod.snd
  | [], _, _ => rfl
  | (cid, n) :: rest, cur, h => by
    simp only [List.map_cons, List.sum_cons] at h ⊢
    simp only [allocSeq, List.map_cons, List.cons.injEq]
    refine ⟨?_, ?_⟩
    · rw [List.length_take, List.length_drop]
      omega
    · exact allocSeq_lengths pool rest (cur + n) (by omega)

theorem allocSeq_snd (pool : List String) :
    ∀ (specs : List (String × ℕ)) (cur : ℕ),
      (allocSeq pool specs cur).2 = cur + (specs.map Prod.snd).sum
  | [], cur => by simp [allocSeq]
  | (cid, n) :: rest, cur => by
    simp only [allocSeq, List.map_cons, List.sum_cons]
    rw [allocSeq_snd pool rest (cur + n)]
    omega

theorem allocSeq_flatten (pool : List String) :
    ∀ (specs : List (String × ℕ)) (cur : ℕ),
      ((allocSeq pool specs cur).1.map Prod.snd).flatten =
        (pool.drop cur).take (specs.map Prod.snd).sum
  | [], cur => by simp [allocSeq]
  | (cid, n) :: rest, cur => by
    simp only [allocSeq, List.map_cons, List.flatten_cons, List.sum_cons]
    rw [allocSeq_flatten pool rest (cur + n), List.take_add, List.drop_drop]

/-- C9: given deduplicated identifiers, a roster with distinct client ids, any
permutation `shuffle` produced by the seeded generator, and a pool at least as
large as the total requirement, `_alloc_splits` succeeds and partitions the
shuffled pool so that every client gets exactly its train and val quotas, the
test set has exactly the requested size, and all allocated segments are
pairwise disjoint.  Determinism given the seed is inherent in the model: the
result is a function of `shuffle` and the inputs. -/
theorem C9_alloc_splits (shuffle : List String → List String) (ids : List String)
    (clients : List Client) (testSize : ℕ)
    (hperm : (shuffle ids).Perm ids) (hnodup : ids.Nodup)
    (hcid : (clients.map Client.id).Nodup)
    (hsize : (clients.map Client.train_samples).sum +
      (clients.map Client.val_samples).sum + testSize ≤ ids.length) :
    splitOk clients testSize (alloc_splits shuffle ids clients testSize) := by
  have hlen : (shuffle ids).length = ids.length := hperm.length_eq
  have hpool_nodup : (shuffle ids).Nodup := hperm.nodup_iff.mpr hnodup
  have hmapT : ((clients.map fun c => (c.id, c.train_samples)).map Prod.snd) =
      clients.map Client.train_samples := by
    simp [List.map_map, Function.comp]
  have hmapV : ((clients.map fun c => (c.id, c.val_samples)).map Prod.snd) =
      clients.map Client.val_samples := by
    simp [List.map_map, Function.comp]
  have hmapTf : ((clients.map fun c => (c.id, c.train_samples)).map Prod.fst) =
      clients.map Client.id := by
    simp [List.map_map, Function.comp]
  have hmapVf : ((clients.map fun c => (c.id, c.val_samples)).map Prod.fst) =
      clients.map Client.id := by
    simp [List.map_map, Function.comp]
  have hcurT := allocSeq_snd (shuffle ids) (clients.map fun c => (c.id, c.train_samples)) 0
  rw [hmapT] at hcurT
  have hcurV := allocSeq_snd (shuffle ids) (clients.map fun c => (c.id, c.val_samples))
    (allocSeq (shuffle ids) (clients.map fun c => (c.id, c.train_samples)) 0).2
  rw [hmapV] at hcurV
  simp only [alloc_splits]
  rw [if_neg (by omega)]
  refine ⟨?_, ?_, ?_, ?_, ?_, ?_⟩
  · rw [allocSeq_map_fst]
    exact hmapTf
  · rw [allocSeq_map_fst]
    exact hmapVf
  · rw [allocSeq_lengths (shuffle ids) _ 0 (by rw [hmapT]; omega)]
    exact hmapT
  · rw [allocSeq_lengths (shuffle ids) _ _ (by rw [hmapV]; omega)]
    exact hmapV
  · rw [List.length_take, List.length_drop]
    exact Nat.min_eq_left (by omega)
  · have hflatT := allocSeq_flatten (shuffle ids)
      (clients.map fun c => (c.id, c.train_samples)) 0
    rw [hmapT, List.drop_zero] at hflatT
    have hflatV := allocSeq_flatten (shuffle ids) (clients.map fun c => (c.id, c.val_samples))
      (allocSeq (shuffle ids) (clients.map fun c => (c.id, c.train_samples)) 0).2
    rw [hmapV] at hflatV
    refine (List.nodup_flatten.mp ?_).2
    rw [List.flatten_append, List.flatten_append, hflatT, hflatV]
    simp only [List.flatten_cons, List.flatten_nil, List.append_nil]
    rw [hcurV, hcurT]
    simp only [Nat.zero_add]
    have h2 : ((shuffle ids).take (clients.map Client.train_samples).sum ++
          ((shuffle ids).drop (clients.map Client.train_samples).sum).take
            (clients.map Client.val_samples).sum ++
          ((shuffle ids).drop ((clients.map Client.train_samples).sum +
            (clients.map Client.val_samples).sum)).take testSize).Nodup := by
      have h3 := hpool_nodup.sublist
        (List.take_sublist ((clients.map Client.train_samples).sum +
          (clients.map Client.val_samples).sum + testSize) (shuffle ids))
      rw [List.take_add, List.take_add] at h3
      exact h3
    simpa [List.append_assoc] using h2

/-- Witness for C9: identity shuffle, pool `["a", "b", "c"]`, a single client
with train and val quotas 1, global test size 1. -/
theorem C9_alloc_splits_witness :
    splitOk [⟨"c1", 1, 1⟩] 1 (alloc_splits id ["a", "b", "c"] [⟨"c1", 1, 1⟩] 1) :=
  C9_alloc_splits id ["a", "b", "c"] [⟨"c1", 1, 1⟩] 1 (List.Perm.refl _)
    (by simp) (by simp) (by norm_num)

end KnexaFL
